import Mathlib

/-!
Verification of the `importee` architectural-dependency linter.

The Rust source is shallowly embedded: Rust `String`s become `List Char`
(named `Str`), `ModulePath` becomes `List Str` (its segment vector),
the file system becomes an explicit oracle `Str → Bool` on path strings,
and the resolver's concurrent memoization map becomes an association list
threaded through each stateful operation.
-/

namespace Importee

/-- Rust strings, embedded as their character sequences. -/
abbrev Str := List Char

/-- Conversion from Lean string literals to the embedded string type. -/
def s2l (s : String) : Str := s.data

/-- Split a character list at every occurrence of `sep`, keeping empty pieces
(the behaviour of Rust's `str::split`). -/
def splitOnChar (sep : Char) : Str → List Str
  | [] => [[]]
  | c :: rest =>
    let r := splitOnChar sep rest
    if c = sep then [] :: r
    else
      match r with
      | [] => [[c]]
      | h :: t => (c :: h) :: t

/-- Join pieces with a separating character (Rust's `Vec::join`). -/
def joinChar (sep : Char) : List Str → Str
  | [] => []
  | [x] => x
  | x :: y :: t => x ++ sep :: joinChar sep (y :: t)

/-- `ModulePath`: ordered name segments (module_path.rs). -/
abbrev ModulePath := List Str

/-- `ModulePath::to_dotted`: join segments with `.` (module_path.rs line 29). -/
def toDotted (m : ModulePath) : Str := joinChar '.' m

/-- `ModulePath::from_dotted`: split on `.` and drop empty segments
(module_path.rs lines 95-102). -/
def fromDotted (dotted : Str) : ModulePath :=
  (splitOnChar '.' dotted).filter (fun s => !s.isEmpty)

/-- `ModulePath::starts_with` (module_path.rs lines 34-42): false when the base
is longer, otherwise compare the zipped segments. -/
def startsWithMP (self base : ModulePath) : Bool :=
  if base.length > self.length then false
  else (self.zip base).all (fun p => p.1 = p.2)

/-- `ModulePath::relative_from` (module_path.rs lines 47-53). -/
def relativeFrom (self base : ModulePath) : Option ModulePath :=
  if !startsWithMP self base then none
  else some (self.drop base.length)

/-- `ModulePath::split_last` (module_path.rs lines 72-79): `(leaf, parent)`. -/
def splitLastSegs : ModulePath → Option (Str × ModulePath)
  | [] => none
  | [x] => some (x, [])
  | x :: y :: t =>
    match splitLastSegs (y :: t) with
    | some (l, p) => some (l, x :: p)
    | none => none

/-- `ModulePath::file_path` viewed as its list of path components
(module_path.rs lines 83-91): directory segments followed by `<leaf>.py`. -/
def filePathComponents : ModulePath → List Str
  | [] => []
  | [x] => [x ++ s2l ".py"]
  | x :: y :: t => x :: filePathComponents (y :: t)

/-- `ModulePath::from_import` (module_path.rs lines 108-130): resolve a
possibly-relative import specifier against the current module. -/
def fromImport (current : ModulePath) (imp : Str) : ModulePath :=
  let dotCount := (imp.takeWhile (fun c => c = '.')).length
  let remainder := imp.drop dotCount
  if dotCount = 0 then fromDotted remainder
  else
    let baseLen := current.length - dotCount
    let segments := current.take baseLen
    if !remainder.isEmpty then segments ++ fromDotted remainder else segments

/-- `ImportLine` (imports/import_line.rs lines 10-14): one statement-level
edge.  The line number is an `i32` in the source, so `Int` here. -/
structure ImportLine where
  from_module : ModulePath
  target_module : ModulePath
  import_line : Int
deriving DecidableEq

/-- Everything before the last `.` of a file name (helper for `fileStem`). -/
def beforeLastDot : Str → Str
  | [] => []
  | c :: rest =>
    if '.' ∈ rest then c :: beforeLastDot rest
    else if c = '.' then [] else c :: rest

/-- Rust `Path::file_stem` on a single file-name component: the whole name if
it has no `.` or is a dot-file with no further `.`, else the portion before
the final `.`. -/
def fileStem (name : Str) : Str :=
  match name with
  | [] => []
  | c :: rest =>
    if '.' ∉ (c :: rest) then c :: rest
    else if c = '.' ∧ '.' ∉ rest then c :: rest
    else beforeLastDot (c :: rest)

/-- `current_file.file_stem().and_then(to_str).unwrap_or("")` on a component
list (rules/linear.rs lines 59-62): the stem of the last path component. -/
def pathFileStem (currentFile : List Str) : Str :=
  match currentFile.getLast? with
  | none => []
  | some n => fileStem n

/-- Rust `slice::windows(k)`: all contiguous sub-slices of length `k`
(empty when the slice is shorter than `k`). -/
def listWindows (k : Nat) (xs : List Str) : List (List Str) :=
  if xs.length < k then []
  else (List.range (xs.length - k + 1)).map (fun i => (xs.drop i).take k)

/-- The `applies` test of `LinearOrderInFolder::check_line`
(rules/linear.rs lines 37-46): some window of the file-path components
equals the configured source folder. -/
def appliesTo (sf : List Str) (currentFile : List Str) : Bool :=
  (listWindows sf.length currentFile).any (fun w => decide (w = sf))

/-- The target-head computation of `check_line` (rules/linear.rs lines 72-83):
the segment right after the source-folder prefix when the target starts with
it and is longer, else the first segment (or empty). -/
def targetHead (sf : List Str) (ts : ModulePath) : Str :=
  if sf.length + 1 ≤ ts.length ∧ ts.take sf.length = sf then ts.getD sf.length []
  else ts.headD []

/-- `order_index.get(name)` where `order_index` is the `HashMap` built in
`LinearOrderInFolder::new` by inserting each `(name, index)` of the
enumerated order (later duplicates overwrite earlier ones). -/
def orderIndexAux : List Str → Nat → Str → Option Nat
  | [], _, _ => none
  | x :: rest, i, name =>
    match orderIndexAux rest (i + 1) name with
    | some j => some j
    | none => if x = name then some i else none

/-- Rank lookup in the configured order (rules/linear.rs lines 17-27, 90-91). -/
def orderIndex (order : List Str) (name : Str) : Option Nat :=
  orderIndexAux order 0 name

/-- `LinearOrderInFolder` (rules/linear.rs lines 10-14); the `order_index`
map is modelled by `orderIndex` over the stored order list, and the
print-only `verbose` flag is dropped. -/
structure LinearOrderInFolder where
  source_folder : List Str
  order : List Str

/-- `LinearOrderInFolder::check_line` (rules/linear.rs lines 35-103). -/
def checkLine (rule : LinearOrderInFolder) (currentFile : List Str)
    (imp : ImportLine) : Bool :=
  let applies := appliesTo rule.source_folder currentFile
  if !applies then true
  else
    let current_module := pathFileStem currentFile
    if current_module.isEmpty then true
    else
      let target_head := targetHead rule.source_folder imp.target_module
      if target_head.isEmpty then true
      else
        match orderIndex rule.order current_module,
              orderIndex rule.order target_head with
        | some me, some other => decide (other ≤ me)
        | _, _ => true

/-- `PathBuf::join` with a relative component: separate with `/`. -/
def pathJoin (a b : Str) : Str := a ++ '/' :: b

/-- Rust `str::replace('.', "/")`. -/
def dotToSlash (s : Str) : Str := s.map (fun c => if c = '.' then '/' else c)

/-- `str::strip_prefix`: remove a leading occurrence of `p`, if present. -/
def dropLead (p s : Str) : Option Str :=
  if s.take p.length = p then some (s.drop p.length) else none

/-- `Path::with_extension("py")`: replace the extension of the final
`/`-component with `py`. -/
def withExtPy (p : Str) : Str :=
  match p with
  | [] => []
  | _ =>
    let comps := splitOnChar '/' p
    joinChar '/' (comps.dropLast ++ [fileStem (comps.getLastD []) ++ s2l ".py"])

/-- `ImportResolver` (imports/classification.rs lines 7-14).  The `DashMap`
memoization cache becomes an association list (insertion shadows, like
`DashMap::insert` overwrites); the derived `root_module_prefix` field is
recomputed on the fly. -/
structure Resolver where
  rootDir : Str
  rootModule : Option Str
  cache : List (Str × Bool)

/-- `DashMap::get` on the association-list cache. -/
def cacheGet : List (Str × Bool) → Str → Option Bool
  | [], _ => none
  | (k, v) :: rest, d => if k = d then some v else cacheGet rest d

/-- `ImportResolver::module_exists_under_root`
(imports/classification.rs lines 45-75). -/
def moduleExistsUnderRoot (fs : Str → Bool) (r : Resolver) (dotted : Str) :
    Bool :=
  if dotted.isEmpty then false
  else
    let dottedRel :=
      match r.rootModule with
      | some rm =>
        if dotted = rm then []
        else
          match dropLead (rm ++ ['.']) dotted with
          | some stripped => stripped
          | none => dotted
      | none => dotted
    if dottedRel.isEmpty then fs (pathJoin r.rootDir (s2l "__init__.py"))
    else
      let rel := dotToSlash dottedRel
      fs (pathJoin r.rootDir (rel ++ s2l ".py")) ||
        fs (pathJoin (pathJoin r.rootDir rel) (s2l "__init__.py"))

/-- `ImportResolver::exists_in_root` (imports/classification.rs
lines 149-175). -/
def existsInRoot (fs : Str → Bool) (r : Resolver) (dotted : Str) : Bool :=
  match r.rootModule with
  | some rm =>
    if dotted = rm then fs (pathJoin r.rootDir (s2l "__init__.py"))
    else
      match dropLead (rm ++ ['.']) dotted with
      | some stripped =>
        let rel := dotToSlash stripped
        fs (pathJoin r.rootDir (rel ++ s2l ".py")) ||
          fs (pathJoin (pathJoin r.rootDir rel) (s2l "__init__.py"))
      | none => false
  | none =>
    let rel := dotToSlash dotted
    fs (pathJoin r.rootDir (rel ++ s2l ".py")) ||
      fs (pathJoin (pathJoin r.rootDir rel) (s2l "__init__.py"))

/-- The pure value `is_local_dotted` memoizes: empty strings are never
local, otherwise `exists_in_root || module_exists_under_root`. -/
def pureIsLocal (fs : Str → Bool) (r : Resolver) (dotted : Str) : Bool :=
  if dotted.isEmpty then false
  else existsInRoot fs r dotted || moduleExistsUnderRoot fs r dotted

/-- `ImportResolver::is_local_dotted` (imports/classification.rs
lines 129-146), with the cache threaded explicitly. -/
def isLocalDotted (fs : Str → Bool) (r : Resolver) (dotted : Str) :
    Bool × Resolver :=
  if dotted.isEmpty then (false, r)
  else
    match cacheGet r.cache dotted with
    | some found => (found, r)
    | none =>
      let isLocal := existsInRoot fs r dotted ||
        moduleExistsUnderRoot fs r dotted
      (isLocal, { r with cache := (dotted, isLocal) :: r.cache })

/-- `ImportResolver::is_local_module` (imports/classification.rs
lines 178-180). -/
def isLocalModule (fs : Str → Bool) (r : Resolver) (m : ModulePath) :
    Bool × Resolver :=
  isLocalDotted fs r (toDotted m)

/-- ASCII apostrophe, used in the classification reason strings. -/
def quoteCh : Char := Char.ofNat 39

/-- `ImportResolver::classify_module` (imports/classification.rs
lines 183-232): local verdict plus a human-readable reason for external
modules, with the memoization cache threaded explicitly. -/
def classifyModule (fs : Str → Bool) (r : Resolver) (m : ModulePath) :
    (Bool × Str) × Resolver :=
  let dotted := toDotted m
  let res := isLocalDotted fs r dotted
  let out : Bool × Str :=
    if res.1 then (true, [])
    else
      match r.rootModule with
      | some rm =>
        let hasPre := decide (dotted = rm) ||
          decide (dotted.take (rm.length + 1) = rm ++ ['.'])
        if !hasPre then
          (false, s2l "not in root module " ++ quoteCh :: rm ++ [quoteCh])
        else
          let rel :=
            if dotted = rm then s2l "__init__.py"
            else dotToSlash (dotted.drop (rm.length + 1)) ++ s2l "/__init__.py"
          let fileP :=
            if dotted = rm then pathJoin r.rootDir (s2l "__init__.py")
            else pathJoin r.rootDir (dotToSlash (dotted.drop (rm.length + 1)))
          (false, s2l "path not found under root: " ++ withExtPy fileP ++
            s2l " (or " ++ pathJoin r.rootDir rel ++ [')'])
      | none =>
        (false, s2l "path not found under cwd: " ++
          pathJoin r.rootDir (dotToSlash dotted ++ s2l ".py"))
  (out, res.2)

/-- `import.starts_with('.')`. -/
def startsWithDot : Str → Bool
  | '.' :: _ => true
  | _ => false

/-- The candidate loop of `resolve_import` (imports/classification.rs
lines 111-123): test candidates in order, with `is_local_dotted` when a
root module is configured, else `module_exists_under_root`. -/
def riLoop (fs : Str → Bool) : List Str → Resolver → Option Str × Resolver
  | [], r => (none, r)
  | cand :: rest, r =>
    let step :=
      match r.rootModule with
      | some _ => isLocalDotted fs r cand
      | none => (moduleExistsUnderRoot fs r cand, r)
    if step.1 then (some cand, step.2) else riLoop fs rest step.2

/-- The already-root-qualified test of `resolve_import`
(imports/classification.rs lines 89-98): the specifier equals the
configured root module or starts with `<root_module>.`. -/
def rootQualified (rootModule : Option Str) (imp : Str) : Bool :=
  match rootModule with
  | some rm => decide (imp = rm) ||
      decide (imp.take (rm.length + 1) = rm ++ ['.'])
  | none => false

/-- `ImportResolver::resolve_import` (imports/classification.rs
lines 82-127). -/
def resolveImport (fs : Str → Bool) (r : Resolver) (current : ModulePath)
    (imp : Str) : ModulePath × Resolver :=
  if startsWithDot imp then (fromImport current imp, r)
  else if rootQualified r.rootModule imp then (fromDotted imp, r)
  else if moduleExistsUnderRoot fs r imp then (fromDotted imp, r)
  else
    let parent :=
      match splitLastSegs current with
      | some x => x.2
      | none => []
    let cands := (List.range parent.length).map
      (fun i => toDotted (parent.take (i + 1) ++ fromDotted imp))
    match riLoop fs cands r with
    | (some c, r2) => (fromDotted c, r2)
    | (none, r2) => (fromDotted imp, r2)

/-- The existence test of resolution step 4 as the claim words it. -/
def riPureTest (fs : Str → Bool) (r : Resolver) (cand : Str) : Bool :=
  match r.rootModule with
  | some _ => pureIsLocal fs r cand
  | none => moduleExistsUnderRoot fs r cand

/-- Resolution algorithm as C2 words it (spec-side definition, to be
compared with `resolveImport`): (1) relative specifiers go to
`from_import`; (2) root-qualified specifiers are returned as written;
(3) then the specifier is tried as-is under the root; (4) then ancestor
prefixes of the current module's parent are prepended, shortest first,
returning the first existing candidate; (5) else the specifier verbatim. -/
def resolveImportSpec (fs : Str → Bool) (r : Resolver) (current : ModulePath)
    (imp : Str) : ModulePath :=
  if startsWithDot imp then fromImport current imp
  else if rootQualified r.rootModule imp then fromDotted imp
  else if moduleExistsUnderRoot fs r imp then fromDotted imp
  else
    let parent := current.dropLast
    match ((List.range parent.length).map
        (fun i => parent.take (i + 1) ++ fromDotted imp)).find?
        (fun c => riPureTest fs r (toDotted c)) with
    | some c => c
    | none => fromDotted imp

/-- The resolver's memoization map is a pure memo of `pureIsLocal`
(the documented invariant of the resolution cache). -/
abbrev CacheOk (fs : Str → Bool) (r : Resolver) : Prop :=
  ∀ k v, cacheGet r.cache k = some v → v = pureIsLocal fs r k

/-- Segments of a well-formed `ModulePath` are non-empty and dot-free
(the documented `ModulePath` invariant). -/
abbrev GoodSegs (m : ModulePath) : Prop := ∀ s ∈ m, s ≠ [] ∧ '.' ∉ s

/-- The positions pushed by `build_line_offsets`'s loop
(imports/collection.rs lines 13-17): `i + 1` for every byte index `i`
holding a newline (byte 10); `pos` tracks the index of the head byte. -/
def buildAux : List Nat → Nat → List Nat
  | [], _ => []
  | b :: rest, pos =>
    if b = 10 then (pos + 1) :: buildAux rest (pos + 1)
    else buildAux rest (pos + 1)

/-- `build_line_offsets` (imports/collection.rs lines 11-19): `offsets[i]`
is the byte offset of line `i + 1`, starting with 0. -/
def buildLineOffsets (source : List Nat) : List Nat := 0 :: buildAux source 0

/-- Result of Rust `slice::binary_search`: `Ok index` or `Err insertion`. -/
inductive BsRes where
  | ok : Nat → BsRes
  | err : Nat → BsRes
deriving DecidableEq

/-- The `binary_search` loop of Rust's standard library on a `Nat` slice,
with explicit fuel (the interval shrinks every step, so
`length + 1` fuel always suffices). -/
def bsGo (xs : List Nat) (k : Nat) : Nat → Nat → Nat → BsRes
  | 0, left, _ => .err left
  | fuel + 1, left, right =>
    if left < right then
      let mid := (left + right) / 2
      let v := xs.getD mid 0
      if v < k then bsGo xs k fuel (mid + 1) right
      else if k < v then bsGo xs k fuel left mid
      else .ok mid
    else .err left

/-- Rust `slice::binary_search(&offset)`. -/
def rustBinSearch (xs : List Nat) (k : Nat) : BsRes :=
  bsGo xs k (xs.length + 1) 0 xs.length

/-- `offset_to_line` (imports/collection.rs lines 23-28): binary search in
the precomputed offset table; `Ok(line)` maps to `line + 1`, `Err(line)`
to `line`. -/
def offsetToLine (offset : Nat) (lineOffsets : List Nat) : Nat :=
  match rustBinSearch lineOffsets offset with
  | .ok line => line + 1
  | .err line => line

/-- The superseded linear-scan line computation
(imports/import_line.rs lines 87 and 94):
`1 + source[..start].bytes().filter(b == newline).count()`. -/
def lineNoLinear (source : List Nat) (start : Nat) : Nat :=
  1 + (source.take start).count 10

/-- Value of `offset_to_line` on a sorted table: the number of offsets
strictly below, plus one exactly when the offset is itself a line start. -/
def lv (xs : List Nat) (o : Nat) : Nat :=
  xs.countP (fun x => decide (x < o)) + (if o ∈ xs then 1 else 0)

/-- A parsed top-level statement, as the external parser capability exposes
it: a plain import with its names, a from-import with optional module,
names and relative level, or anything else; `start` is the statement's
byte offset. -/
inductive PyStmt where
  | imp : List Str → Nat → PyStmt
  | impFrom : Option Str → List Str → Option Nat → Nat → PyStmt
  | other : PyStmt
deriving DecidableEq

/-- The base-specifier computation for a from-import statement
(imports/collection.rs lines 105-131): prefer `<module>.<first name>` when
it resolves locally, else the module alone; with an empty module, a single
leading dot when a relative level is present, prepended to the first name. -/
def computeFromBase (fs : Str → Bool) (current : ModulePath) (r : Resolver)
    (moduleName? : Option Str) (names : List Str) (level : Option Nat) :
    Option Str × Resolver :=
  let module_name := moduleName?.getD []
  if !module_name.isEmpty then
    match names.head? with
    | some first =>
      let trySub := module_name ++ '.' :: first
      let res := resolveImport fs r current trySub
      let loc := isLocalModule fs res.2 res.1
      if loc.1 then (some trySub, loc.2) else (some module_name, loc.2)
    | none => (some module_name, r)
  else
    match names.head? with
    | some first =>
      let dots : Str := if level.isSome then ['.'] else []
      (some (dots ++ first), r)
    | none => (none, r)

/-- The shared tail of `collect_imports_from_stmt`
(imports/collection.rs lines 136-152): resolve the base specifier and keep
the edge only when the resolved target is local. -/
def pushIfLocal (fs : Str → Bool) (current : ModulePath) (r : Resolver)
    (lineNo : Nat) (baseSpec : Str) : List ImportLine × Resolver :=
  let res := resolveImport fs r current baseSpec
  let loc := isLocalModule fs res.2 res.1
  if loc.1 then ([⟨current, res.1, Int.ofNat lineNo⟩], loc.2)
  else ([], loc.2)

/-- `collect_imports_from_stmt` (imports/collection.rs lines 83-153). -/
def collectImportsFromStmt (fs : Str → Bool) (current : ModulePath)
    (r : Resolver) (lineOffsets : List Nat) (st : PyStmt) :
    List ImportLine × Resolver :=
  match st with
  | .other => ([], r)
  | .imp names start =>
    match names.head? with
    | none => ([], r)
    | some nm => pushIfLocal fs current r (offsetToLine start lineOffsets) nm
  | .impFrom moduleName? names level start =>
    let base := computeFromBase fs current r moduleName? names level
    match base.1 with
    | none => ([], base.2)
    | some b =>
      pushIfLocal fs current base.2 (offsetToLine start lineOffsets) b

/-- The statement loop of `get_file_imports`
(imports/collection.rs lines 61-80), threading the resolver state. -/
def collectAll (fs : Str → Bool) (current : ModulePath)
    (lineOffsets : List Nat) :
    List PyStmt → Resolver → List ImportLine × Resolver
  | [], r => ([], r)
  | st :: rest, r =>
    let first := collectImportsFromStmt fs current r lineOffsets st
    let more := collectAll fs current lineOffsets rest first.2
    (first.1 ++ more.1, more.2)

/-- `get_file_imports` (imports/collection.rs lines 33-81), with the
external parser's output (`body`) and the file's bytes (`source`) supplied
as oracles; builds the line-offset table once and collects per statement. -/
def getFileImports (fs : Str → Bool) (module : ModulePath) (r : Resolver)
    (source : List Nat) (body : List PyStmt) : List ImportLine × Resolver :=
  collectAll fs module (buildLineOffsets source) body r

/-- `CacheEntry` (file_processor.rs lines 12-23): schema version, content
hash, and `(target_dotted, line)` pairs; the current version is 2. -/
structure CacheEntry where
  version : Nat
  hash : Str
  imports : List (Str × Int)
deriving DecidableEq

/-- `try_load_cache` (file_processor.rs lines 57-81), with the cache-file
read (`readData`, the content of the file at the cache path if any) and
JSON deserialization (`deser`) supplied as oracles: any failure or
version/hash mismatch is a `none` (cache miss), otherwise the stored edges
verbatim, rebuilt against the module's path. -/
def tryLoadCache (readData : Option Str) (deser : Str → Option CacheEntry)
    (modulePath : ModulePath) (hash : Str) : Option (List ImportLine) :=
  match readData with
  | none => none
  | some data =>
    match deser data with
    | none => none
    | some entry =>
      if entry.version < 2 then none
      else if entry.hash ≠ hash then none
      else some (entry.imports.map (fun p => ⟨modulePath, fromDotted p.1, p.2⟩))

/-- The cache-or-extract phase of `process_file_with_rules`
(file_processor.rs lines 150-171), instrumented with whether extraction
(the parse) ran and whether the cache was written: `imports` starts from
the cached edges (or empty when disabled or missed), and extraction plus a
save happen exactly when that vector `is_empty()`. -/
def processImportsPhase (disableCache : Bool)
    (cached : Option (List ImportLine)) (extracted : List ImportLine) :
    List ImportLine × Bool × Bool :=
  let imports := if disableCache then [] else cached.getD []
  if imports.isEmpty then (extracted, true, !disableCache)
  else (imports, false, false)

theorem splitOnChar_cons (sep c : Char) (rest : Str) :
    splitOnChar sep (c :: rest) =
      if c = sep then [] :: splitOnChar sep rest
      else
        match splitOnChar sep rest with
        | [] => [[c]]
        | h :: t => (c :: h) :: t := rfl

theorem splitOnChar_ne_nil (sep : Char) (s : Str) : splitOnChar sep s ≠ [] := by
  cases s with
  | nil => simp [splitOnChar]
  | cons c rest =>
    unfold splitOnChar
    by_cases h : c = sep
    · simp [h]
    · simp only [h, if_false]
      cases splitOnChar sep rest <;> simp

theorem splitOnChar_of_not_mem (sep : Char) (x : Str) (h : sep ∉ x) :
    splitOnChar sep x = [x] := by
  induction x with
  | nil => rfl
  | cons c rest ih =>
    have hc : c ≠ sep := fun he => h (he ▸ List.mem_cons_self c rest)
    have hr : sep ∉ rest := fun hm => h (List.mem_cons_of_mem c hm)
    unfold splitOnChar
    rw [ih hr, if_neg hc]

theorem splitOnChar_append_sep (sep : Char) (x s : Str) (h : sep ∉ x) :
    splitOnChar sep (x ++ sep :: s) = x :: splitOnChar sep s := by
  induction x with
  | nil => simp [splitOnChar]
  | cons c rest ih =>
    have hc : c ≠ sep := fun he => h (he ▸ List.mem_cons_self c rest)
    have hr : sep ∉ rest := fun hm => h (List.mem_cons_of_mem c hm)
    rw [List.cons_append, splitOnChar_cons, ih hr, if_neg hc]

theorem splitOnChar_pieces (sep : Char) (s : Str) :
    ∀ x ∈ splitOnChar sep s, sep ∉ x := by
  induction s with
  | nil =>
    intro x hx
    simp [splitOnChar] at hx
    simp [hx]
  | cons c rest ih =>
    intro x hx
    unfold splitOnChar at hx
    by_cases hc : c = sep
    · simp only [hc, if_true] at hx
      rcases List.mem_cons.mp hx with h1 | h2
      · simp [h1]
      · exact ih x h2
    · simp only [hc, if_false] at hx
      rcases hsp : splitOnChar sep rest with _ | ⟨h0, t⟩
      · exact absurd hsp (splitOnChar_ne_nil sep rest)
      · rw [hsp] at hx
        rcases List.mem_cons.mp hx with h1 | h2
        · subst h1
          intro hm
          rcases List.mem_cons.mp hm with h3 | h4
          · exact hc h3.symm
          · exact ih h0 (hsp ▸ List.mem_cons_self h0 t) h4
        · exact ih x (hsp ▸ List.mem_cons_of_mem h0 h2)

theorem fromDotted_goodSegs (s : Str) : GoodSegs (fromDotted s) := by
  intro x hx
  unfold fromDotted at hx
  have hmem := List.mem_of_mem_filter hx
  have hne := List.of_mem_filter hx
  refine ⟨?_, splitOnChar_pieces '.' s x hmem⟩
  intro he
  rw [he] at hne
  simp at hne

theorem fromDotted_toDotted (m : ModulePath) (h : GoodSegs m) :
    fromDotted (toDotted m) = m := by
  induction m with
  | nil => rfl
  | cons x rest ih =>
    obtain ⟨hxne, hxdot⟩ := h x (List.mem_cons_self x rest)
    have hrest : GoodSegs rest := fun s hs => h s (List.mem_cons_of_mem x hs)
    cases rest with
    | nil =>
      show fromDotted (joinChar '.' [x]) = [x]
      unfold joinChar fromDotted
      rw [splitOnChar_of_not_mem '.' x hxdot]
      simp [hxne]
    | cons y t =>
      have hjoin : toDotted (x :: y :: t) = x ++ '.' :: toDotted (y :: t) := rfl
      unfold fromDotted
      rw [hjoin, splitOnChar_append_sep '.' x (toDotted (y :: t)) hxdot]
      simp only [List.filter_cons]
      rw [if_pos (by simpa using hxne)]
      exact congrArg (x :: ·) (ih hrest)

theorem splitLastSegs_cons (x : Str) (rest : List Str) :
    ∃ l, splitLastSegs (x :: rest) = some (l, (x :: rest).dropLast) := by
  induction rest generalizing x with
  | nil => exact ⟨x, rfl⟩
  | cons y t ih =>
    obtain ⟨l, hl⟩ := ih y
    exact ⟨l, by rw [List.dropLast_cons₂]; unfold splitLastSegs; rw [hl]⟩

theorem splitLastSegs_parent (current : ModulePath) :
    (match splitLastSegs current with
     | some x => x.2
     | none => []) = current.dropLast := by
  cases current with
  | nil => rfl
  | cons x rest =>
    obtain ⟨l, hl⟩ := splitLastSegs_cons x rest
    rw [hl]

theorem pureIsLocal_cache_irrel (fs : Str → Bool) (a : Str) (b : Option Str)
    (c1 c2 : List (Str × Bool)) :
    pureIsLocal fs ⟨a, b, c1⟩ = pureIsLocal fs ⟨a, b, c2⟩ := rfl

theorem riPureTest_cache_irrel (fs : Str → Bool) (a : Str) (b : Option Str)
    (c1 c2 : List (Str × Bool)) :
    riPureTest fs ⟨a, b, c1⟩ = riPureTest fs ⟨a, b, c2⟩ := rfl

theorem isLocalDotted_pure (fs : Str → Bool) (a : Str) (b : Option Str)
    (c : List (Str × Bool)) (h : CacheOk fs ⟨a, b, c⟩) (d : Str) :
    ∃ c2, isLocalDotted fs ⟨a, b, c⟩ d =
        (pureIsLocal fs ⟨a, b, c⟩ d, ⟨a, b, c2⟩) ∧
      CacheOk fs ⟨a, b, c2⟩ := by
  by_cases hd : d.isEmpty
  · exact ⟨c, by simp [isLocalDotted, pureIsLocal, hd], h⟩
  · rcases hcg : cacheGet c d with _ | v
    · refine ⟨(d, existsInRoot fs ⟨a, b, c⟩ d ||
        moduleExistsUnderRoot fs ⟨a, b, c⟩ d) :: c, ?_, ?_⟩
      · simp [isLocalDotted, pureIsLocal, hd, hcg]
      · intro k v hkv
        unfold cacheGet at hkv
        by_cases hk : d = k
        · subst hk
          rw [if_pos rfl] at hkv
          rw [congrFun (pureIsLocal_cache_irrel fs a b
            ((d, existsInRoot fs ⟨a, b, c⟩ d ||
              moduleExistsUnderRoot fs ⟨a, b, c⟩ d) :: c) c) d]
          have hpure : pureIsLocal fs ⟨a, b, c⟩ d =
              (existsInRoot fs ⟨a, b, c⟩ d ||
                moduleExistsUnderRoot fs ⟨a, b, c⟩ d) := by
            unfold pureIsLocal
            rw [if_neg hd]
          rw [hpure]
          exact (Option.some.inj hkv).symm
        · rw [if_neg hk] at hkv
          exact h k v hkv
    · refine ⟨c, ?_, h⟩
      have hv := h d v hcg
      simp [isLocalDotted, hd, hcg, hv]

theorem riLoop_find (fs : Str → Bool) :
    ∀ (cands : List Str) (a : Str) (b : Option Str) (c : List (Str × Bool)),
      CacheOk fs ⟨a, b, c⟩ →
      ∃ c2, riLoop fs cands ⟨a, b, c⟩ =
          (cands.find? (fun x => riPureTest fs ⟨a, b, c⟩ x), ⟨a, b, c2⟩) ∧
        CacheOk fs ⟨a, b, c2⟩ := by
  intro cands
  induction cands with
  | nil => exact fun a b c h => ⟨c, rfl, h⟩
  | cons cand rest ih =>
    intro a b c h
    rcases hb : b with _ | rm
    · subst hb
      by_cases hx : moduleExistsUnderRoot fs ⟨a, none, c⟩ cand
      · refine ⟨c, ?_, h⟩
        rw [List.find?_cons_of_pos _ (by simpa [riPureTest] using hx)]
        simp [riLoop, hx]
      · obtain ⟨c2, hrest, hok⟩ := ih a none c h
        refine ⟨c2, ?_, hok⟩
        rw [List.find?_cons_of_neg _ (by simpa [riPureTest] using hx)]
        simpa [riLoop, hx] using hrest
    · subst hb
      obtain ⟨c1, hstep, hok1⟩ := isLocalDotted_pure fs a (some rm) c h cand
      have htest : riPureTest fs ⟨a, some rm, c⟩ cand =
          pureIsLocal fs ⟨a, some rm, c⟩ cand := rfl
      by_cases hx : pureIsLocal fs ⟨a, some rm, c⟩ cand
      · refine ⟨c1, ?_, hok1⟩
        rw [List.find?_cons_of_pos _ (by rw [htest]; exact hx)]
        simp [riLoop, hstep, hx]
      · obtain ⟨c2, hrest, hok2⟩ := ih a (some rm) c1 hok1
        refine ⟨c2, ?_, hok2⟩
        rw [List.find?_cons_of_neg _ (by rw [htest]; simpa using hx)]
        have hb1 : (fun x => riPureTest fs ⟨a, some rm, c1⟩ x) =
            (fun x => riPureTest fs ⟨a, some rm, c⟩ x) := by
          rw [riPureTest_cache_irrel fs a (some rm) c1 c]
        rw [hb1] at hrest
        simp only [riLoop, hstep]
        rw [if_neg (by simpa using hx)]
        exact hrest

/-- C2: `resolve_import` implements exactly the five-step resolution of the
spec, candidates tried shortest ancestor prefix first (stated as equality
with the spec-side `resolveImportSpec`, given a consistent memo cache and
a well-formed current module). -/
theorem resolve_import_matches_spec (fs : Str → Bool) (r : Resolver)
    (current : ModulePath) (imp : Str) (hc : CacheOk fs r)
    (hseg : GoodSegs current) :
    (resolveImport fs r current imp).1 = resolveImportSpec fs r current imp := by
  obtain ⟨a, b, c⟩ := r
  unfold resolveImport resolveImportSpec
  by_cases h1 : startsWithDot imp
  · simp [h1]
  · simp only [h1, Bool.false_eq_true, if_false]
    by_cases h2 : rootQualified b imp
    · rw [if_pos h2, if_pos h2]
    · rw [if_neg h2, if_neg h2]
      by_cases h3 : moduleExistsUnderRoot fs ⟨a, b, c⟩ imp
      · simp [h3]
      · simp only [h3, Bool.false_eq_true, if_false]
        rw [splitLastSegs_parent current]
        have hmap : (List.range current.dropLast.length).map
            (fun i => toDotted (current.dropLast.take (i + 1) ++ fromDotted imp)) =
            ((List.range current.dropLast.length).map
              (fun i => current.dropLast.take (i + 1) ++ fromDotted imp)).map
              toDotted := by
          rw [List.map_map]
          rfl
        rw [hmap]
        obtain ⟨c2, hloop, _⟩ := riLoop_find fs
          (((List.range current.dropLast.length).map
            (fun i => current.dropLast.take (i + 1) ++ fromDotted imp)).map
            toDotted) a b c hc
        rw [hloop, List.find?_map]
        rcases hf : ((List.range current.dropLast.length).map
            (fun i => current.dropLast.take (i + 1) ++ fromDotted imp)).find?
            ((fun x => riPureTest fs ⟨a, b, c⟩ x) ∘ toDotted) with _ | cand
        · have hfun : (fun cand => riPureTest fs ⟨a, b, c⟩ (toDotted cand)) =
            ((fun x => riPureTest fs ⟨a, b, c⟩ x) ∘ toDotted) := rfl
          rw [hfun, hf]
          rfl
        · have hfun : (fun cand => riPureTest fs ⟨a, b, c⟩ (toDotted cand)) =
            ((fun x => riPureTest fs ⟨a, b, c⟩ x) ∘ toDotted) := rfl
          rw [hfun, hf]
          show fromDotted (toDotted cand) = cand
          have hmem := List.mem_of_find?_eq_some hf
          obtain ⟨i, _, hi⟩ := List.mem_map.mp hmem
          apply fromDotted_toDotted
          intro s hs
          rw [← hi] at hs
          rcases List.mem_append.mp hs with hl | hr
          · exact hseg s (List.mem_of_mem_dropLast (List.mem_of_mem_take hl))
          · exact fromDotted_goodSegs imp s hr

/-- Witness for `resolve_import_matches_spec`: a concrete resolver with an
empty cache, a two-segment current module and an ancestor-prefix hit. -/
theorem resolve_import_matches_spec_witness :
    CacheOk (fun p => decide (p = s2l "root/pkg/mod.py"))
      ⟨s2l "root", none, []⟩ ∧
    GoodSegs [s2l "pkg", s2l "sub"] ∧
    (resolveImport (fun p => decide (p = s2l "root/pkg/mod.py"))
      ⟨s2l "root", none, []⟩ [s2l "pkg", s2l "sub"] (s2l "mod")).1 =
      resolveImportSpec (fun p => decide (p = s2l "root/pkg/mod.py"))
        ⟨s2l "root", none, []⟩ [s2l "pkg", s2l "sub"] (s2l "mod") :=
  ⟨(fun _ _ h => nomatch h), by decide,
    resolve_import_matches_spec _ _ _ _ (fun _ _ h => nomatch h) (by decide)⟩

theorem isLocalDotted_idem (fs : Str → Bool) (r : Resolver) (d : Str) :
    isLocalDotted fs (isLocalDotted fs r d).2 d =
      ((isLocalDotted fs r d).1, (isLocalDotted fs r d).2) := by
  obtain ⟨a, b, c⟩ := r
  by_cases hd : d.isEmpty
  · simp [isLocalDotted, hd]
  · rcases hcg : cacheGet c d with _ | v
    · simp [isLocalDotted, cacheGet, hd, hcg]
    · simp [isLocalDotted, hd, hcg]

theorem isLocalDotted_fields (fs : Str → Bool) (a : Str) (b : Option Str)
    (c : List (Str × Bool)) (d : Str) :
    ∃ c2, (isLocalDotted fs ⟨a, b, c⟩ d).2 = ⟨a, b, c2⟩ := by
  by_cases hd : d.isEmpty
  · exact ⟨c, by simp [isLocalDotted, hd]⟩
  · rcases hcg : cacheGet c d with _ | v
    · exact ⟨(d, existsInRoot fs ⟨a, b, c⟩ d ||
        moduleExistsUnderRoot fs ⟨a, b, c⟩ d) :: c,
        by simp [isLocalDotted, hd, hcg]⟩
    · exact ⟨c, by simp [isLocalDotted, hd, hcg]⟩

theorem classifyModule_state (fs : Str → Bool) (r : Resolver) (m : ModulePath) :
    (classifyModule fs r m).2 = (isLocalDotted fs r (toDotted m)).2 := rfl

/-- C8: whenever `classify_module` reports a module as external (first
component `false`) the reason string is non-empty; and two successive calls
on the same resolver return identical results; moreover with a consistent
memo cache a module that is not local is indeed reported external. -/
theorem classify_external_nonempty_and_deterministic :
    (∀ (fs : Str → Bool) (r : Resolver) (m : ModulePath),
      ((classifyModule fs r m).1).1 = false →
      ((classifyModule fs r m).1).2 ≠ []) ∧
    (∀ (fs : Str → Bool) (r : Resolver) (m : ModulePath),
      (classifyModule fs (classifyModule fs r m).2 m).1 =
        (classifyModule fs r m).1) ∧
    (∀ (fs : Str → Bool) (r : Resolver) (m : ModulePath),
      CacheOk fs r → pureIsLocal fs r (toDotted m) = false →
      ((classifyModule fs r m).1).1 = false) := by
  refine ⟨?_, ?_, ?_⟩
  · intro fs r m h
    unfold classifyModule at h ⊢
    by_cases h1 : (isLocalDotted fs r (toDotted m)).1
    · simp [h1] at h
    · simp only [h1, Bool.false_eq_true, if_false] at h ⊢
      rcases hb : r.rootModule with _ | rm <;> simp only [hb]
      · simp [s2l]
      · split
        · simp [s2l]
        · simp [s2l]
  · intro fs r m
    obtain ⟨a, b, c⟩ := r
    rw [classifyModule_state]
    obtain ⟨c2, hshape⟩ := isLocalDotted_fields fs a b c (toDotted m)
    have hid := isLocalDotted_idem fs ⟨a, b, c⟩ (toDotted m)
    rw [hshape] at hid ⊢
    simp only [classifyModule]
    rw [hid]
  · intro fs r m hc hfalse
    obtain ⟨a, b, c⟩ := r
    obtain ⟨c2, heq, _⟩ := isLocalDotted_pure fs a b c hc (toDotted m)
    simp only [classifyModule]
    rw [heq]
    simp only [hfalse, Bool.false_eq_true, if_false]
    rcases b with _ | rm
    · rfl
    · split <;> first | rfl | (split <;> rfl)

/-- Witness for `classify_external_nonempty_and_deterministic`: a concrete
external module on an empty-cache resolver. -/
theorem classify_external_witness :
    ((classifyModule (fun _ => false) ⟨s2l "root", none, []⟩
        [s2l "ext"]).1).2 ≠ [] ∧
    ((classifyModule (fun _ => false) ⟨s2l "root", none, []⟩
        [s2l "ext"]).1).1 = false :=
  ⟨classify_external_nonempty_and_deterministic.1 _ _ _ (by decide),
   classify_external_nonempty_and_deterministic.2.2 _ _ _
     (fun _ _ h => nomatch h) (by decide)⟩

theorem bsGo_succ (xs : List Nat) (k fuel left right : Nat) :
    bsGo xs k (fuel + 1) left right =
      if left < right then
        let mid := (left + right) / 2
        let v := xs.getD mid 0
        if v < k then bsGo xs k fuel (mid + 1) right
        else if k < v then bsGo xs k fuel left mid
        else .ok mid
      else .err left := rfl

theorem countP_eq_of_bounds (k : Nat) :
    ∀ (xs : List Nat) (m : Nat), m ≤ xs.length →
    (∀ i, i < m → xs.getD i 0 < k) →
    (∀ i, m ≤ i → i < xs.length → ¬ xs.getD i 0 < k) →
    xs.countP (fun x => decide (x < k)) = m := by
  intro xs
  induction xs with
  | nil =>
    intro m hm _ _
    have hm0 : m = 0 := Nat.le_zero.mp (by simpa using hm)
    simp [hm0]
  | cons x rest ih =>
    intro m hm h1 h2
    cases m with
    | zero =>
      have hx : ¬ x < k := by simpa using h2 0 (Nat.zero_le 0) (by simp)
      rw [List.countP_cons]
      rw [if_neg (by simpa using hx)]
      have : rest.countP (fun x => decide (x < k)) = 0 := by
        rw [List.countP_eq_zero]
        intro a ha
        obtain ⟨i, hi, hia⟩ := List.mem_iff_getElem.mp ha
        have := h2 (i + 1) (Nat.zero_le _) (by simpa using Nat.succ_lt_succ hi)
        rw [List.getD_cons_succ, List.getD_eq_getElem rest 0 hi, hia] at this
        simpa using this
      rw [this]
    | succ n =>
      have hx : x < k := by simpa using h1 0 (Nat.succ_pos n)
      rw [List.countP_cons, if_pos (by simpa using hx)]
      have hrest : rest.countP (fun x => decide (x < k)) = n := by
        refine ih n (by simpa using hm) ?_ ?_
        · intro i hi
          have := h1 (i + 1) (Nat.succ_lt_succ hi)
          rwa [List.getD_cons_succ] at this
        · intro i hni hilen
          have := h2 (i + 1) (Nat.succ_le_succ hni)
            (by simpa using Nat.succ_lt_succ hilen)
          rwa [List.getD_cons_succ] at this
      rw [hrest]

theorem bsGo_sorted (xs : List Nat) (k : Nat)
    (hs : List.Pairwise (· < ·) xs) :
    ∀ (fuel left right : Nat), right - left < fuel → left ≤ right →
    right ≤ xs.length →
    (∀ i, i < left → xs.getD i 0 < k) →
    (∀ i, right ≤ i → i < xs.length → k < xs.getD i 0) →
    bsGo xs k fuel left right =
      if k ∈ xs then BsRes.ok (xs.countP (fun x => decide (x < k)))
      else BsRes.err (xs.countP (fun x => decide (x < k))) := by
  have hmono : ∀ i j (_ : i < xs.length) (hj : j < xs.length), i < j →
      xs.getD i 0 < xs.getD j 0 := by
    intro i j hi hj hij
    rw [List.getD_eq_getElem xs 0 hi, List.getD_eq_getElem xs 0 hj]
    exact List.pairwise_iff_getElem.mp hs i j hi hj hij
  intro fuel
  induction fuel with
  | zero => intro left right hf _ _ _ _; omega
  | succ fuel ih =>
    intro left right hf hlr hrlen h1 h2
    rw [bsGo_succ]
    by_cases hcond : left < right
    · rw [if_pos hcond]
      simp only
      by_cases hv1 : xs.getD ((left + right) / 2) 0 < k
      · rw [if_pos hv1]
        refine ih ((left + right) / 2 + 1) right (by omega) (by omega) hrlen
          ?_ h2
        intro i hi
        rcases Nat.lt_succ_iff_lt_or_eq.mp hi with hlt | heq
        · exact lt_trans (hmono i ((left + right) / 2) (by omega) (by omega)
            hlt) hv1
        · rw [heq]; exact hv1
      · rw [if_neg hv1]
        by_cases hv2 : k < xs.getD ((left + right) / 2) 0
        · rw [if_pos hv2]
          refine ih left ((left + right) / 2) (by omega) (by omega)
            (by omega) h1 ?_
          intro i hmi hilen
          rcases Nat.eq_or_lt_of_le hmi with heq | hlt
          · rw [← heq]; exact hv2
          · exact lt_trans hv2 (hmono ((left + right) / 2) i (by omega)
              hilen hlt)
        · rw [if_neg hv2]
          have hveq : xs.getD ((left + right) / 2) 0 = k := by omega
          have hmlen : (left + right) / 2 < xs.length := by omega
          have hkmem : k ∈ xs := by
            rw [← hveq, List.getD_eq_getElem xs 0 hmlen]
            exact List.getElem_mem hmlen
          rw [if_pos hkmem]
          have : xs.countP (fun x => decide (x < k)) = (left + right) / 2 := by
            refine countP_eq_of_bounds k xs ((left + right) / 2) (by omega)
              ?_ ?_
            · intro i hi
              have := hmono i ((left + right) / 2) (by omega) hmlen hi
              omega
            · intro i hmi hilen
              rcases Nat.eq_or_lt_of_le hmi with heq | hlt
              · rw [← heq]; omega
              · have := hmono ((left + right) / 2) i hmlen hilen hlt
                omega
          rw [this]
    · rw [if_neg hcond]
      have hleft : left = right := by omega
      have hnmem : k ∉ xs := by
        intro hk
        obtain ⟨i, hilen, hik⟩ := List.mem_iff_getElem.mp hk
        have hgd : xs.getD i 0 = k := by
          rw [List.getD_eq_getElem xs 0 hilen, hik]
        by_cases hil : i < left
        · have := h1 i hil; omega
        · have := h2 i (by omega) hilen; omega
      rw [if_neg hnmem]
      have : xs.countP (fun x => decide (x < k)) = left := by
        refine countP_eq_of_bounds k xs left (by omega) h1 ?_
        intro i hmi hilen
        have := h2 i (by omega) hilen
        omega
      rw [this]

theorem offsetToLine_sorted (xs : List Nat) (k : Nat)
    (hs : List.Pairwise (· < ·) xs) :
    offsetToLine k xs = lv xs k := by
  unfold offsetToLine rustBinSearch lv
  rw [bsGo_sorted xs k hs (xs.length + 1) 0 xs.length (by omega) (by omega)
    le_rfl (fun i hi => absurd hi (Nat.not_lt_zero i))
    (fun i hri hilen => absurd hilen (by omega))]
  by_cases hk : k ∈ xs <;> simp [hk]

theorem buildAux_shift (rest : List Nat) :
    ∀ p, buildAux rest (p + 1) = (buildAux rest p).map (· + 1) := by
  induction rest with
  | nil => intro p; rfl
  | cons b t ih =>
    intro p
    by_cases hb : b = 10 <;> simp [buildAux, hb, ih (p + 1)]

theorem buildAux_pos (s : List Nat) : ∀ p, ∀ x ∈ buildAux s p, p < x := by
  induction s with
  | nil => intro p x hx; simp [buildAux] at hx
  | cons b t ih =>
    intro p x hx
    unfold buildAux at hx
    by_cases hb : b = 10
    · rw [if_pos hb] at hx
      rcases List.mem_cons.mp hx with h1 | h2
      · omega
      · have := ih (p + 1) x h2; omega
    · rw [if_neg hb] at hx
      have := ih (p + 1) x hx; omega

theorem buildAux_sorted (s : List Nat) :
    ∀ p, List.Pairwise (· < ·) (buildAux s p) := by
  induction s with
  | nil => intro p; simp [buildAux]
  | cons b t ih =>
    intro p
    unfold buildAux
    by_cases hb : b = 10
    · rw [if_pos hb]
      exact List.Pairwise.cons (fun x hx => buildAux_pos t (p + 1) x hx)
        (ih (p + 1))
    · rw [if_neg hb]; exact ih (p + 1)

theorem buildLineOffsets_sorted (s : List Nat) :
    List.Pairwise (· < ·) (buildLineOffsets s) :=
  List.Pairwise.cons (fun x hx => buildAux_pos s 0 x hx) (buildAux_sorted s 0)

theorem lv_cons (a : Nat) (Y : List Nat) (ha : a ∉ Y) (o : Nat) :
    lv (a :: Y) o = (if a < o ∨ o = a then 1 else 0) + lv Y o := by
  unfold lv
  rw [List.countP_cons]
  simp only [List.mem_cons, decide_eq_true_eq]
  by_cases h2 : o = a
  · subst h2
    simp [ha]
    omega
  · by_cases h1 : a < o <;> by_cases h3 : o ∈ Y <;>
      simp [h1, h2, h3] <;> omega

theorem lv_shift (L : List Nat) (o : Nat) :
    lv (L.map (· + 1)) (o + 1) = lv L o := by
  unfold lv
  rw [List.countP_map]
  have hc : ((fun x => decide (x < o + 1)) ∘ (· + 1)) =
      (fun x : Nat => decide (x < o)) := by
    funext x
    simp [Function.comp]
  rw [hc]
  have hm : (o + 1 ∈ L.map (· + 1)) ↔ o ∈ L := by
    simp [List.mem_map]
  rw [if_congr hm rfl rfl]

theorem lv_zero_of_pos (L : List Nat) (hL : (0 : Nat) ∉ L) : lv L 0 = 0 := by
  unfold lv
  rw [if_neg hL, List.countP_eq_zero.mpr (by intro a _; simp)]

theorem lineCount_identity (s : List Nat) : ∀ offset : Nat,
    lv (buildLineOffsets s) offset = 1 + (s.take offset).count 10 := by
  induction s with
  | nil =>
    intro offset
    cases offset with
    | zero => simp [buildLineOffsets, buildAux, lv]
    | succ o => simp [buildLineOffsets, buildAux, lv]
  | cons b rest ih =>
    intro offset
    have h0B : (0 : Nat) ∉ buildAux rest 0 :=
      fun h => absurd (buildAux_pos rest 0 0 h) (lt_irrefl 0)
    have hIH : ∀ j, lv (buildAux rest 0) j = (rest.take j).count 10 := by
      intro j
      have hj := ih j
      rw [show buildLineOffsets rest = 0 :: buildAux rest 0 from rfl,
        lv_cons 0 (buildAux rest 0) h0B j, if_pos (by omega)] at hj
      omega
    by_cases hb : b = 10
    · subst hb
      have hB10 : buildLineOffsets (10 :: rest) =
          0 :: 1 :: (buildAux rest 0).map (· + 1) := by
        show 0 :: buildAux (10 :: rest) 0 = _
        rw [show buildAux (10 :: rest) 0 = (0 + 1) :: buildAux rest (0 + 1)
          from rfl, buildAux_shift rest 0]
      have h1X : (1 : Nat) ∉ (buildAux rest 0).map (· + 1) := by
        simp only [List.mem_map, not_exists]
        rintro x ⟨hx, hx1⟩
        have := buildAux_pos rest 0 x hx
        omega
      have h0X : (0 : Nat) ∉ (1 : Nat) :: (buildAux rest 0).map (· + 1) := by
        simp only [List.mem_cons, List.mem_map, not_or, not_exists]
        exact ⟨by omega, fun x ⟨_, hx1⟩ => by omega⟩
      rw [hB10]
      cases offset with
      | zero =>
        rw [lv_cons 0 _ h0X 0, if_pos (Or.inr rfl),
          lv_cons 1 _ h1X 0, if_neg (by omega),
          lv_zero_of_pos _ (fun h => by
            rcases List.mem_map.mp h with ⟨x, _, hx1⟩
            omega)]
        simp
      | succ o =>
        rw [lv_cons 0 _ h0X (o + 1), if_pos (by omega),
          lv_cons 1 _ h1X (o + 1), if_pos (by omega),
          lv_shift (buildAux rest 0) o, hIH o,
          List.take_succ_cons, List.count_cons]
        simp
        omega
    · have hBn : buildLineOffsets (b :: rest) =
          0 :: (buildAux rest 0).map (· + 1) := by
        show 0 :: buildAux (b :: rest) 0 = _
        rw [show buildAux (b :: rest) 0 =
          if b = 10 then (0 + 1) :: buildAux rest (0 + 1)
          else buildAux rest (0 + 1) from rfl, if_neg hb,
          buildAux_shift rest 0]
      have h0X : (0 : Nat) ∉ (buildAux rest 0).map (· + 1) := by
        simp only [List.mem_map, not_exists]
        rintro x ⟨_, hx1⟩
        omega
      rw [hBn]
      cases offset with
      | zero =>
        rw [lv_cons 0 _ h0X 0, if_pos (Or.inr rfl), lv_zero_of_pos _ h0X]
        simp
      | succ o =>
        rw [lv_cons 0 _ h0X (o + 1), if_pos (by omega),
          lv_shift (buildAux rest 0) o, hIH o,
          List.take_succ_cons, List.count_cons]
        simp [hb]

theorem offsetToLine_eq_linear (source : List Nat) (offset : Nat) :
    offsetToLine offset (buildLineOffsets source) = lineNoLinear source offset := by
  rw [offsetToLine_sorted _ _ (buildLineOffsets_sorted source)]
  exact lineCount_identity source offset

/-- C4: `from_import` with `k ≥ 1` leading dots keeps the current module's
first `len - min k len` segments and appends the non-empty dot-separated
parts of the remainder; with `k = 0` it is `from_dotted` of the specifier;
and the three worked vectors hold exactly. -/
theorem from_import_characterization :
    (∀ (current : ModulePath) (imp : Str) (k : Nat),
      k = (imp.takeWhile (fun c => c = '.')).length →
      (k = 0 → fromImport current imp = fromDotted imp) ∧
      (1 ≤ k → fromImport current imp =
        current.take (current.length - min k current.length) ++
          fromDotted (imp.drop k))) ∧
    fromImport (fromDotted (s2l "foo.bar")) (s2l "foo.nothing") =
      fromDotted (s2l "foo.nothing") ∧
    fromImport (fromDotted (s2l "foo.bar")) (s2l ".other") =
      fromDotted (s2l "foo.other") ∧
    fromImport (fromDotted (s2l "a.b.c")) (s2l "..d") =
      fromDotted (s2l "a.d") := by
  refine ⟨?_, by decide, by decide, by decide⟩
  intro current imp k hk
  constructor
  · intro h0
    rw [fromImport, ← hk, if_pos h0, h0, List.drop_zero]
  · intro h1
    have hmin : current.length - min k current.length = current.length - k := by
      omega
    rw [hmin, fromImport, ← hk, if_neg (by omega)]
    by_cases hr : (imp.drop k).isEmpty
    · rw [if_neg (by simp [hr])]
      have : imp.drop k = [] := by simpa using hr
      rw [this]
      simp [fromDotted, splitOnChar]
    · rw [if_pos (by simp [hr])]

/-- Witness for `from_import_characterization` at `current = a.b.c`,
`spec = ..d`, `k = 2`. -/
theorem from_import_characterization_witness :
    fromImport (fromDotted (s2l "a.b.c")) (s2l "..d") =
      (fromDotted (s2l "a.b.c")).take ((fromDotted (s2l "a.b.c")).length -
        min 2 (fromDotted (s2l "a.b.c")).length) ++
        fromDotted ((s2l "..d").drop 2) :=
  (from_import_characterization.1 (fromDotted (s2l "a.b.c")) (s2l "..d") 2
    (by decide)).2 (by decide)

/-- C1: evaluating `check_line` on the configuration scope `app`, order
`[api, service, repo]` and the edge from file `app/api/x.py` to
`app.repo.y`: the code PASSES the edge (returns `true`), because it ranks
the file stem `x` (absent from the order) instead of the scope-relative
head `api`, and it produces no reason string at all. -/
theorem linear_fail_vector_code_eval :
    checkLine ⟨[s2l "app"], [s2l "api", s2l "service", s2l "repo"]⟩
      (filePathComponents (fromDotted (s2l "app.api.x")))
      ⟨fromDotted (s2l "app.api.x"), fromDotted (s2l "app.repo.y"), 3⟩
      = true := by decide

/-- C5 counterexample: with scope `app` and order `[api, service, repo]`,
the edge from file `app/api.py` to the project-relative target `repo.y`
FAILS `check_line` even though the target is outside the rule's scope
(`relative_from` on it returns `none`). -/
theorem linear_out_of_scope_counterexample :
    relativeFrom (fromDotted (s2l "repo.y")) [s2l "app"] = none ∧
    checkLine ⟨[s2l "app"], [s2l "api", s2l "service", s2l "repo"]⟩
      (filePathComponents (fromDotted (s2l "app.api")))
      ⟨fromDotted (s2l "app.api"), fromDotted (s2l "repo.y"), 1⟩
      = false := by decide

/-- C5 amended: `check_line` passes whenever the file path lacks the scope's
segments as a consecutive window of components, and whenever the target's
head (the segment after the scope prefix when the target starts with the
scope, else its first segment) or the file's stem is absent from the
configured order; out-of-scope targets are otherwise NOT exempt. -/
theorem linear_no_op_amended :
    (∀ (rule : LinearOrderInFolder) (f : List Str) (imp : ImportLine),
      appliesTo rule.source_folder f = false → checkLine rule f imp = true) ∧
    (∀ (rule : LinearOrderInFolder) (f : List Str) (imp : ImportLine),
      orderIndex rule.order (targetHead rule.source_folder imp.target_module)
        = none → checkLine rule f imp = true) ∧
    (∀ (rule : LinearOrderInFolder) (f : List Str) (imp : ImportLine),
      orderIndex rule.order (pathFileStem f) = none →
      checkLine rule f imp = true) := by
  refine ⟨?_, ?_, ?_⟩
  · intro rule f imp h
    simp [checkLine, h]
  · intro rule f imp h
    by_cases ha : appliesTo rule.source_folder f
    · simp only [checkLine, ha, Bool.not_true, Bool.false_eq_true, if_false]
      by_cases hc : (pathFileStem f).isEmpty
      · simp [hc]
      · simp only [hc, Bool.false_eq_true, if_false]
        by_cases ht : (targetHead rule.source_folder imp.target_module).isEmpty
        · simp [ht]
        · simp only [ht, Bool.false_eq_true, if_false, h]
          cases orderIndex rule.order (pathFileStem f) <;> rfl
    · simp [checkLine, ha]
  · intro rule f imp h
    by_cases ha : appliesTo rule.source_folder f
    · simp only [checkLine, ha, Bool.not_true, Bool.false_eq_true, if_false]
      by_cases hc : (pathFileStem f).isEmpty
      · simp [hc]
      · simp only [hc, Bool.false_eq_true, if_false]
        by_cases ht : (targetHead rule.source_folder imp.target_module).isEmpty
        · simp [ht]
        · simp only [ht, Bool.false_eq_true, if_false, h]
    · simp [checkLine, ha]

/-- Witness for `linear_no_op_amended`: each no-op condition realized on a
concrete rule and edge. -/
theorem linear_no_op_amended_witness :
    checkLine ⟨[s2l "app"], [s2l "api"]⟩ [s2l "lib", s2l "z.py"]
      ⟨[], [], 0⟩ = true ∧
    checkLine ⟨[s2l "app"], [s2l "api"]⟩ [s2l "app", s2l "api.py"]
      ⟨[], [s2l "zzz"], 0⟩ = true ∧
    checkLine ⟨[s2l "app"], [s2l "api"]⟩ [s2l "app", s2l "zzz.py"]
      ⟨[], [s2l "api"], 0⟩ = true :=
  ⟨linear_no_op_amended.1 _ _ _ (by decide),
   linear_no_op_amended.2.1 _ _ _ (by decide),
   linear_no_op_amended.2.2 _ _ _ (by decide)⟩

/-- C9: the logarithmic-time line computation refines the linear scan: for
every source and every byte offset not exceeding its length,
`offset_to_line(offset, build_line_offsets(source))` equals one plus the
number of newline bytes in `source[..offset]`. -/
theorem offset_to_line_refines_linear (source : List Nat) (offset : Nat)
    (_h : offset ≤ source.length) :
    offsetToLine offset (buildLineOffsets source) =
      lineNoLinear source offset :=
  offsetToLine_eq_linear source offset

/-- Witness for `offset_to_line_refines_linear` on the bytes of
`"ab\nc d"`-like content, offset 3 (the byte right after the newline). -/
theorem offset_to_line_refines_linear_witness :
    3 ≤ [97, 98, 10, 99, 100].length ∧
    offsetToLine 3 (buildLineOffsets [97, 98, 10, 99, 100]) =
      lineNoLinear [97, 98, 10, 99, 100] 3 :=
  ⟨by decide, offset_to_line_refines_linear [97, 98, 10, 99, 100] 3
    (by decide)⟩

theorem offsetToLine_ge_one (s : List Nat) (k : Nat) :
    1 ≤ offsetToLine k (buildLineOffsets s) := by
  rw [offsetToLine_eq_linear]
  unfold lineNoLinear
  omega

theorem pushIfLocal_mem (fs : Str → Bool) (current : ModulePath)
    (r : Resolver) (n : Nat) (b : Str) (e : ImportLine)
    (he : e ∈ (pushIfLocal fs current r n b).1) :
    e.from_module = current ∧ e.import_line = Int.ofNat n := by
  simp only [pushIfLocal] at he
  by_cases hl : (isLocalModule fs (resolveImport fs r current b).2
      (resolveImport fs r current b).1).1
  · rw [if_pos hl] at he
    rcases List.mem_singleton.mp he with rfl
    exact ⟨rfl, rfl⟩
  · rw [if_neg hl] at he
    exact absurd he (List.not_mem_nil e)

theorem collectStmt_mem (fs : Str → Bool) (current : ModulePath)
    (r : Resolver) (lineOffsets : List Nat) (st : PyStmt) (e : ImportLine)
    (he : e ∈ (collectImportsFromStmt fs current r lineOffsets st).1) :
    e.from_module = current ∧
      ∃ start, e.import_line = Int.ofNat (offsetToLine start lineOffsets) := by
  cases st with
  | other => exact absurd he (List.not_mem_nil e)
  | imp names start =>
    rcases hh : names.head? with _ | nm
    · simp only [collectImportsFromStmt, hh] at he
      exact absurd he (List.not_mem_nil e)
    · simp only [collectImportsFromStmt, hh] at he
      obtain ⟨h1, h2⟩ := pushIfLocal_mem fs current r
        (offsetToLine start lineOffsets) nm e he
      exact ⟨h1, start, h2⟩
  | impFrom moduleName? names level start =>
    rcases hb : (computeFromBase fs current r moduleName? names level).1
        with _ | b
    · simp only [collectImportsFromStmt, hb] at he
      exact absurd he (List.not_mem_nil e)
    · simp only [collectImportsFromStmt, hb] at he
      obtain ⟨h1, h2⟩ := pushIfLocal_mem fs current
        (computeFromBase fs current r moduleName? names level).2
        (offsetToLine start lineOffsets) b e he
      exact ⟨h1, start, h2⟩

theorem collectAll_mem (fs : Str → Bool) (current : ModulePath)
    (lineOffsets : List Nat) :
    ∀ (body : List PyStmt) (r : Resolver) (e : ImportLine),
      e ∈ (collectAll fs current lineOffsets body r).1 →
      e.from_module = current ∧
        ∃ start, e.import_line = Int.ofNat (offsetToLine start lineOffsets) := by
  intro body
  induction body with
  | nil => intro r e he; exact absurd he (List.not_mem_nil e)
  | cons st rest ih =>
    intro r e he
    simp only [collectAll] at he
    rcases List.mem_append.mp he with h1 | h2
    · exact collectStmt_mem fs current r lineOffsets st e h1
    · exact ih _ e h2

/-- C10: every edge produced by fresh extraction carries a line number of
at least 1 (the line-0 sentinel never arises here) and the given module
path as its `from_module`, for every resolver, source and parsed body. -/
theorem fresh_extraction_line_and_from (fs : Str → Bool)
    (module : ModulePath) (r : Resolver) (source : List Nat)
    (body : List PyStmt) :
    ∀ e ∈ (getFileImports fs module r source body).1,
      1 ≤ e.import_line ∧ e.from_module = module := by
  intro e he
  obtain ⟨hfrom, start, hline⟩ :=
    collectAll_mem fs module (buildLineOffsets source) body r e he
  refine ⟨?_, hfrom⟩
  rw [hline]
  exact Int.ofNat_le.mpr (offsetToLine_ge_one source start)

/-- Witness for `fresh_extraction_line_and_from`: a one-statement body
whose import resolves locally, yielding the edge `m -> x` at line 1. -/
theorem fresh_extraction_line_and_from_witness :
    1 ≤ (ImportLine.mk [s2l "m"] [s2l "x"] 1).import_line ∧
      (ImportLine.mk [s2l "m"] [s2l "x"] 1).from_module = [s2l "m"] :=
  fresh_extraction_line_and_from (fun p => decide (p = s2l "root/x.py"))
    [s2l "m"] ⟨s2l "root", none, []⟩ [] [PyStmt.imp [s2l "x"] 0]
    (ImportLine.mk [s2l "m"] [s2l "x"] 1) (by decide)

/-- C7: for a pure relative from-import at level 2 (`from .. import x`,
empty module part), the code builds the base specifier `".x"` — a single
leading dot regardless of the statement's relative level — not the `"..x"`
(k dots) the claim requires. -/
theorem pure_relative_base_single_dot :
    (computeFromBase (fun _ => false) [] ⟨[], none, []⟩ none [s2l "x"]
      (some 2)).1 = some (s2l ".x") ∧ s2l ".x" ≠ s2l "..x" := by decide

/-- C6: `try_load_cache` yields `some` exactly when the stored file exists,
deserializes, has version at least 2 and a matching hash — and then the
stored edges verbatim (rebuilt against the module path); every other
outcome is `none`, never an error. -/
theorem try_load_cache_characterization (readData : Option Str)
    (deser : Str → Option CacheEntry) (modulePath : ModulePath) (hash : Str)
    (es : List ImportLine) :
    tryLoadCache readData deser modulePath hash = some es ↔
      ∃ data entry, readData = some data ∧ deser data = some entry ∧
        2 ≤ entry.version ∧ entry.hash = hash ∧
        es = entry.imports.map
          (fun p => ⟨modulePath, fromDotted p.1, p.2⟩) := by
  constructor
  · intro h
    rcases readData with _ | data
    · exact absurd h (by simp [tryLoadCache])
    · simp only [tryLoadCache] at h
      rcases hd : deser data with _ | entry
      · simp [hd] at h
      · simp only [hd] at h
        by_cases hv : entry.version < 2
        · rw [if_pos hv] at h
          exact absurd h (by simp)
        · rw [if_neg hv] at h
          by_cases hh : entry.hash ≠ hash
          · rw [if_pos hh] at h
            exact absurd h (by simp)
          · rw [if_neg hh] at h
            exact ⟨data, entry, rfl, hd, by omega, not_not.mp hh,
              (Option.some.inj h).symm⟩
  · rintro ⟨data, entry, hr, hd, hv, hh, he⟩
    subst hr
    subst he
    simp only [tryLoadCache]
    simp only [hd]
    rw [if_neg (by omega), if_neg (by simp [hh])]

/-- C3: a valid cache entry whose stored edge list is empty is nevertheless
re-parsed (and re-saved): `try_load_cache` returns `some []`, yet the
processing phase runs extraction (second component `true`) and writes the
cache again (third component `true`), because the code tests
`imports.is_empty()` instead of the load's `Option`. -/
theorem cache_hit_empty_edges_reparses :
    tryLoadCache (some (s2l "data"))
      (fun d => if d = s2l "data" then some ⟨2, s2l "h", []⟩ else none)
      [s2l "m"] (s2l "h") = some [] ∧
    processImportsPhase false (some []) [⟨[s2l "m"], [s2l "x"], 1⟩] =
      ([⟨[s2l "m"], [s2l "x"], 1⟩], true, true) := by decide

end Importee
